import Mathlib

/-!
Shallow embedding of `asuka/app.py`: application identity, credential
synchronization (`private_key` setter / `key_pair` getter /
`_create_github_deploy_key`), the tag-filtered instance listing
(`InstanceSet`), the derived deployment-state index
(`DeployedBranchDict`), and the per-application secret derivation
(`consistent_secret`, a SHA-256 hex digest).

Python dicts are modelled as insertion-ordered association lists with
unique keys; `dict.update` replaces the value of an existing key in
place and appends new keys at the end, which `dictInsert`/`dictUpdate`
mirror.
-/

namespace Asuka

/-- First-match lookup in an association list (Python `d[k]` / `d.get(k)`). -/
def lookupKV : List (String × String) → String → Option String
  | [], _ => none
  | p :: rest, k => if p.1 = k then some p.2 else lookupKV rest k

/-- Python `k in d`. -/
def containsKey : List (String × String) → String → Bool
  | [], _ => false
  | p :: rest, k => p.1 == k || containsKey rest k

/-- Python `d[k] = v`: replace in place if the key exists, else append. -/
def dictInsert : List (String × String) → String → String → List (String × String)
  | [], k, v => [(k, v)]
  | p :: rest, k, v => if p.1 = k then (k, v) :: rest else p :: dictInsert rest k v

/-- Python `base.update(upd)` applied entry by entry in `upd`'s order. -/
def dictUpdate (base upd : List (String × String)) : List (String × String) :=
  upd.foldl (fun d p => dictInsert d p.1 p.2) base

/-- Keys are pairwise distinct (the invariant of every Python dict). -/
def nodupKeys : List (String × String) → Bool
  | [] => true
  | p :: rest => !containsKey rest p.1 && nodupKeys rest

/-- Python `d.get(k, default)`. -/
def lookupD (d : List (String × String)) (k dflt : String) : String :=
  (lookupKV d k).getD dflt

/-! ### Basic dictionary lemmas -/

theorem lookupKV_append (xs ys : List (String × String)) (k : String) :
    lookupKV (xs ++ ys) k = (lookupKV xs k).orElse (fun _ => lookupKV ys k) := by
  induction xs with
  | nil => simp [lookupKV, Option.orElse]
  | cons p rest ih =>
    by_cases h : p.1 = k <;> simp [lookupKV, h, ih, Option.orElse]

theorem containsKey_iff_lookup (d : List (String × String)) (k : String) :
    containsKey d k = true ↔ (lookupKV d k).isSome := by
  induction d with
  | nil => simp [containsKey, lookupKV]
  | cons p rest ih =>
    by_cases h : p.1 = k <;> simp [containsKey, lookupKV, h, ih]

theorem lookup_of_not_containsKey (d : List (String × String)) (k : String)
    (h : containsKey d k = false) : lookupKV d k = none := by
  cases hl : lookupKV d k with
  | none => rfl
  | some v =>
    exfalso
    have := (containsKey_iff_lookup d k).mpr (by simp [hl])
    simp [h] at this

theorem lookupKV_dictInsert (d : List (String × String)) (k v k' : String) :
    lookupKV (dictInsert d k v) k' = if k = k' then some v else lookupKV d k' := by
  induction d with
  | nil => simp [dictInsert, lookupKV]
  | cons p rest ih =>
    by_cases h : p.1 = k
    · by_cases h2 : k = k' <;> simp [dictInsert, lookupKV, h, h2, h ▸ h2]
    · by_cases h2 : p.1 = k'
      · have hne : ¬ k = k' := fun e => h (e ▸ h2)
        have hne' : ¬ k' = k := fun e => hne e.symm
        simp [dictInsert, lookupKV, h, h2, hne, hne']
      · simp [dictInsert, lookupKV, h, h2, ih]

theorem containsKey_dictInsert (d : List (String × String)) (k v k' : String) :
    containsKey (dictInsert d k v) k' = (k == k' || containsKey d k') := by
  induction d with
  | nil => simp [dictInsert, containsKey]
  | cons p rest ih =>
    by_cases h : p.1 = k
    · subst h
      by_cases h2 : p.1 = k' <;> simp [dictInsert, containsKey, h2]
    · by_cases h2 : p.1 = k'
      · have hne : ¬ k' = k := fun e => h (h2.trans e)
        simp [dictInsert, containsKey, h, h2, hne]
      · simp [dictInsert, containsKey, h, h2, ih]
        cases k == k' <;> simp

theorem nodupKeys_dictInsert (d : List (String × String)) (k v : String)
    (h : nodupKeys d = true) : nodupKeys (dictInsert d k v) = true := by
  induction d with
  | nil => simp [dictInsert, nodupKeys, containsKey]
  | cons p rest ih =>
    simp only [nodupKeys, Bool.and_eq_true, Bool.not_eq_true'] at h
    by_cases hk : p.1 = k
    · subst hk
      simp [dictInsert, nodupKeys, h.1, h.2]
    · have hrest := ih h.2
      simp [dictInsert, hk, nodupKeys, hrest, containsKey_dictInsert, h.1]
      intro e
      exact absurd e.symm hk

theorem nodupKeys_dictUpdate (base upd : List (String × String))
    (h : nodupKeys base = true) : nodupKeys (dictUpdate base upd) = true := by
  induction upd generalizing base with
  | nil => exact h
  | cons p rest ih => exact ih _ (nodupKeys_dictInsert base p.1 p.2 h)

theorem lookup_none_of_nodup_head (p : String × String) (rest : List (String × String))
    (h : nodupKeys (p :: rest) = true) : lookupKV rest p.1 = none := by
  simp only [nodupKeys, Bool.and_eq_true, Bool.not_eq_true'] at h
  exact lookup_of_not_containsKey rest p.1 h.1

/-- When the update list has unique keys, an updated dictionary reads the
update first and falls back to the base. -/
theorem lookupKV_dictUpdate (base upd : List (String × String)) (k : String)
    (h : nodupKeys upd = true) :
    lookupKV (dictUpdate base upd) k
      = (lookupKV upd k).orElse (fun _ => lookupKV base k) := by
  induction upd generalizing base with
  | nil => simp [dictUpdate, lookupKV, Option.orElse]
  | cons p rest ih =>
    have hrest : nodupKeys rest = true := by
      simp only [nodupKeys, Bool.and_eq_true] at h
      exact h.2
    have step : dictUpdate base (p :: rest) = dictUpdate (dictInsert base p.1 p.2) rest := rfl
    rw [step, ih _ hrest]
    by_cases hk : p.1 = k
    · have hnone : lookupKV rest k = none := hk ▸ lookup_none_of_nodup_head p rest h
      simp [lookupKV, hk, hnone, lookupKV_dictInsert, Option.orElse]
    · simp [lookupKV, hk, lookupKV_dictInsert, Option.orElse]

/-! ### Instances and `InstanceSet` -/

/-- A transient local view of a remote compute instance: provider id,
`instance-state-name`, and its tag dictionary. -/
structure Inst where
  iid : String
  state : String
  tags : List (String × String)
deriving DecidableEq

/-- `InstanceSet`: the owning app's name plus the accumulated tag
predicates (`self.tags`). -/
structure InstSet where
  appName : String
  tags : List (String × String)
deriving DecidableEq

/-- `InstanceSet.__init__`: `self.tags = {'App': app.name}; self.tags.update(tags)`. -/
def mkInstSet (app : String) (tags : List (String × String)) : InstSet :=
  ⟨app, dictUpdate [("App", app)] tags⟩

/-- `InstanceSet.tagged`: `tags = {tag: value}; tags.update(self.tags);
return type(self)(self.app, tags)`. -/
def InstSet.tagged (s : InstSet) (t v : String) : InstSet :=
  mkInstSet s.appName (dictUpdate [(t, v)] s.tags)

/-- `App.instances`: `InstanceSet(self)` with the default empty tag argument. -/
def appInstances (app : String) : InstSet := mkInstSet app []

/-- The filter dictionary `InstanceSet.__iter__` sends to
`get_all_instances`: each tag predicate prefixed with `tag:`, then
`filters['instance-state-name'] = 'running'`. -/
def filtersOf (s : InstSet) : List (String × String) :=
  dictInsert (s.tags.map (fun p => ("tag:" ++ p.1, p.2))) "instance-state-name" "running"

/-- A failure of the `get_all_instances` call: either an EC2 API error
response (`boto.exception.EC2ResponseError`, carrying its error code) or
any other exception. -/
inductive ListFailure
  | ec2ResponseError (code : String)
  | otherFailure (desc : String)
deriving DecidableEq

/-- `InstanceSet.__iter__`'s error handling: the whole listing is wrapped
in `try: ... except EC2ResponseError: pass`, so an `EC2ResponseError` of
any code yields the empty sequence and every other failure propagates. -/
def iterOutcome (r : Except ListFailure (List Inst)) : Except ListFailure (List Inst) :=
  match r with
  | .ok xs => .ok xs
  | .error (.ec2ResponseError _) => .ok []
  | .error e => .error e

/-- Ported from the spec's words, for comparison with `iterOutcome`: the
spec swallows only the provider errors "that indicate no matching
resources" or "a recognized transient API fault".  EC2 error codes in
those two families (resource-not-found eventual-consistency codes and
throttling/internal-fault codes); authorization or validation failures
such as `AuthFailure` are in neither family. -/
def specSwallowedCodes : List String :=
  ["InvalidInstanceID.NotFound", "InvalidAMIID.NotFound",
   "RequestLimitExceeded", "InternalError", "Unavailable", "ServiceUnavailable"]

/-- Ported from the spec's words: which listing failures the spec says are
swallowed (all others are rethrown). -/
def specSwallows : ListFailure → Bool
  | .ec2ResponseError code => specSwallowedCodes.contains code
  | .otherFailure _ => false

/-! ### `DeployedBranchDict`

`itertags` walks the enumeration of instances tagged `Status=done` and
incrementally fills the cache dictionary `self.branches`:

    self.branches = {}
    for instance in app.instances.tagged('Status', 'done'):
        tags = dict(instance.tags)
        if tags.get('Live', '') == 'live': continue
        try: branch = tags['Branch']; commit = tags['Commit']
        except KeyError: continue
        if branch not in self.branches:
            self.branches[branch] = commit
            yield branch, commit

The enumeration order is whatever the provider returned, so the model
takes the enumerated instance list as a parameter. -/

/-- The deployment record one instance contributes before the
already-seen-branch check: `none` when the instance is tagged
`Live=live` or is missing its `Branch` or `Commit` tag. -/
def recordOf (i : Inst) : Option (String × String) :=
  if lookupD i.tags "Live" "" = "live" then none
  else
    match lookupKV i.tags "Branch", lookupKV i.tags "Commit" with
    | some b, some c => some (b, c)
    | _, _ => none

/-- Full run of `itertags` starting from cache `acc`: the returned list is
the final `self.branches` dictionary (which coincides with the yielded
`(branch, commit)` sequence when `acc = []`). -/
def itertagsAux (acc : List (String × String)) : List Inst → List (String × String)
  | [] => acc
  | i :: rest =>
    match recordOf i with
    | some (b, c) =>
        if containsKey acc b then itertagsAux acc rest
        else itertagsAux (acc ++ [(b, c)]) rest
    | none => itertagsAux acc rest

/-- `self.branches` after a complete `itertags` pass from a cold cache. -/
def itertagsFull (insts : List Inst) : List (String × String) :=
  itertagsAux [] insts

/-- The commit of the first instance in enumeration order that is not
`Live=live` and carries `Branch = b` and a `Commit` tag.  This is the
spec's description of the recorded value for branch `b`. -/
def firstRecord (insts : List Inst) (b : String) : Option String :=
  insts.findSome? (fun i =>
    match recordOf i with
    | some (b', c) => if b' = b then some c else none
    | none => none)

/-- `DeployedBranchDict.__getitem__`'s cold-cache scan for the label `l`:
consumes `itertags` until the first yielded record for `l`, abandoning
the generator there.  Returns the found commit (or `none`, meaning
`KeyError`) together with the cache contents `self.branches` was left
with. -/
def getColdAux (l : String) (acc : List (String × String)) :
    List Inst → Option String × List (String × String)
  | [] => (none, acc)
  | i :: rest =>
    match recordOf i with
    | some (b, c) =>
        if containsKey acc b then getColdAux l acc rest
        else
          if b = l then (some c, acc ++ [(b, c)])
          else getColdAux l (acc ++ [(b, c)]) rest
    | none => getColdAux l acc rest

/-- The cache state of a `DeployedBranchDict`: `self.branches is None`
(cold) or a populated dictionary (warm). -/
inductive DBState
  | cold
  | warm (cache : List (String × String))
deriving DecidableEq

/-- `DeployedBranchDict.refresh`: `self.branches = None`. -/
def dbRefresh (_ : DBState) : DBState := .cold

/-- `DeployedBranchDict.__getitem__` for a branch with label `l`, given the
enumeration `insts` a fresh listing would return.  Produces the result
(`.error ()` models the raised `KeyError`), the state afterwards, and
whether a remote listing was issued. -/
def dbGet : DBState → List Inst → String → Except Unit String × DBState × Bool
  | .cold, insts, l =>
    match getColdAux l [] insts with
    | (some c, cache) => (.ok c, .warm cache, true)
    | (none, cache) => (.error (), .warm cache, true)
  | .warm cache, _, l =>
    match lookupKV cache l with
    | some c => (.ok c, .warm cache, false)
    | none => (.error (), .warm cache, false)

/-- `DeployedBranchDict.__len__`: a cold cache forces a full `itertags`
pass (populating the cache); a warm cache is read directly. -/
def dbLen : DBState → List Inst → Nat × DBState × Bool
  | .cold, insts => ((itertagsFull insts).length, .warm (itertagsFull insts), true)
  | .warm cache, _ => (cache.length, .warm cache, false)

/-! ### Lemmas about the deployment-state index -/

theorem orElse_thunk_none (o : Option String) :
    (o.orElse (fun _ => none)) = o := by cases o <;> rfl

theorem some_orElse_thunk (v : String) (f : Unit → Option String) :
    ((some v).orElse f) = some v := rfl

theorem none_orElse_thunk (f : Unit → Option String) :
    ((none : Option String).orElse f) = f () := rfl

theorem orElse_thunk_assoc (o₁ o₂ : Option String) (f : Unit → Option String) :
    ((o₁.orElse (fun _ => o₂)).orElse f) = o₁.orElse (fun _ => o₂.orElse f) := by
  cases o₁ <;> rfl

/-- The cache only grows along an `itertags` pass. -/
theorem itertagsAux_extends (insts : List Inst) (acc : List (String × String)) :
    ∃ rest, itertagsAux acc insts = acc ++ rest := by
  induction insts generalizing acc with
  | nil => exact ⟨[], by simp [itertagsAux]⟩
  | cons i rest ih =>
    cases hr : recordOf i with
    | none => simpa [itertagsAux, hr] using ih acc
    | some bc =>
      obtain ⟨b, c⟩ := bc
      by_cases hc : containsKey acc b
      · simpa [itertagsAux, hr, hc] using ih acc
      · obtain ⟨tail, ht⟩ := ih (acc ++ [(b, c)])
        exact ⟨(b, c) :: tail, by simp [itertagsAux, hr, hc, ht]⟩

/-- Looking up any branch in the completed cache finds the commit of the
first eligible instance for that branch, unless the starting cache
already had an entry for it. -/
theorem lookup_itertagsAux (insts : List Inst) (acc : List (String × String)) (b : String) :
    lookupKV (itertagsAux acc insts) b
      = (lookupKV acc b).orElse (fun _ => firstRecord insts b) := by
  induction insts generalizing acc with
  | nil =>
    show lookupKV acc b = (lookupKV acc b).orElse (fun _ => firstRecord [] b)
    have : firstRecord [] b = none := rfl
    rw [this, orElse_thunk_none]
  | cons i rest ih =>
    cases hr : recordOf i with
    | none =>
      have h1 : itertagsAux acc (i :: rest) = itertagsAux acc rest := by
        simp [itertagsAux, hr]
      have hfr : firstRecord (i :: rest) b = firstRecord rest b := by
        simp [firstRecord, List.findSome?_cons, hr]
      rw [h1, hfr]
      exact ih acc
    | some bc =>
      obtain ⟨b', c⟩ := bc
      have hfr : firstRecord (i :: rest) b
          = if b' = b then some c else firstRecord rest b := by
        by_cases hb : b' = b <;>
          simp [firstRecord, List.findSome?_cons, hr, hb]
      by_cases hc : containsKey acc b'
      · have h1 : itertagsAux acc (i :: rest) = itertagsAux acc rest := by
          simp [itertagsAux, hr, hc]
        rw [h1, ih, hfr]
        by_cases hb : b' = b
        · subst hb
          have := (containsKey_iff_lookup acc b').mp hc
          cases hl : lookupKV acc b' with
          | none => simp [hl] at this
          | some v => rw [if_pos rfl, some_orElse_thunk, some_orElse_thunk]
        · rw [if_neg hb]
      · have h1 : itertagsAux acc (i :: rest) = itertagsAux (acc ++ [(b', c)]) rest := by
          simp [itertagsAux, hr, hc]
        rw [h1, ih, lookupKV_append, hfr]
        have hsingle : lookupKV [(b', c)] b = if b' = b then some c else none := by
          by_cases hb : b' = b <;> simp [lookupKV, hb]
        rw [hsingle, orElse_thunk_assoc]
        by_cases hb : b' = b
        · subst hb
          have hl : lookupKV acc b' = none :=
            lookup_of_not_containsKey acc b' (by simpa using hc)
          rw [hl, if_pos rfl, if_pos rfl, some_orElse_thunk]
        · rw [if_neg hb, if_neg hb]
          cases lookupKV acc b <;> rfl

theorem lookup_itertagsFull (insts : List Inst) (b : String) :
    lookupKV (itertagsFull insts) b = firstRecord insts b := by
  have := lookup_itertagsAux insts [] b
  simpa [itertagsFull, lookupKV, none_orElse_thunk] using this

theorem not_containsKey_of_lookup_none (d : List (String × String)) (k : String)
    (h : lookupKV d k = none) : containsKey d k = false := by
  cases hc : containsKey d k with
  | false => rfl
  | true =>
    have := (containsKey_iff_lookup d k).mp hc
    simp [h] at this

/-- The behaviour of the cold-cache `__getitem__` scan: the result agrees
with a full recomputation; the cache it leaves behind is an initial
segment of the fully recomputed cache; a miss leaves the full cache; a
hit leaves the cache ending exactly at the found record. -/
theorem getColdAux_spec (insts : List Inst) (acc : List (String × String)) (l : String)
    (hl : lookupKV acc l = none) :
    (getColdAux l acc insts).1 = firstRecord insts l ∧
    (∃ rest, itertagsAux acc insts = (getColdAux l acc insts).2 ++ rest) ∧
    ((getColdAux l acc insts).1 = none → (getColdAux l acc insts).2 = itertagsAux acc insts) ∧
    (∀ c, (getColdAux l acc insts).1 = some c →
      ∃ pre, (getColdAux l acc insts).2 = pre ++ [(l, c)] ∧ lookupKV pre l = none) := by
  induction insts generalizing acc with
  | nil =>
    refine ⟨rfl, ⟨[], by simp [itertagsAux, getColdAux]⟩, fun _ => by
      simp [itertagsAux, getColdAux], fun c hc => by simp [getColdAux] at hc⟩
  | cons i rest ih =>
    cases hr : recordOf i with
    | none =>
      have h1 : getColdAux l acc (i :: rest) = getColdAux l acc rest := by
        simp [getColdAux, hr]
      have h2 : itertagsAux acc (i :: rest) = itertagsAux acc rest := by
        simp [itertagsAux, hr]
      have hfr : firstRecord (i :: rest) l = firstRecord rest l := by
        simp [firstRecord, List.findSome?_cons, hr]
      rw [h1, h2, hfr]
      exact ih acc hl
    | some bc =>
      obtain ⟨b, c⟩ := bc
      have hfr : firstRecord (i :: rest) l
          = if b = l then some c else firstRecord rest l := by
        by_cases hb : b = l <;>
          simp [firstRecord, List.findSome?_cons, hr, hb]
      by_cases hc : containsKey acc b
      · have hbl : ¬ b = l := by
          intro e
          subst e
          have := not_containsKey_of_lookup_none acc b hl
          simp [this] at hc
        have h1 : getColdAux l acc (i :: rest) = getColdAux l acc rest := by
          simp [getColdAux, hr, hc]
        have h2 : itertagsAux acc (i :: rest) = itertagsAux acc rest := by
          simp [itertagsAux, hr, hc]
        rw [h1, h2, hfr, if_neg hbl]
        exact ih acc hl
      · by_cases hb : b = l
        · subst hb
          have h1 : getColdAux b acc (i :: rest) = (some c, acc ++ [(b, c)]) := by
            simp [getColdAux, hr, hc]
          have h2 : itertagsAux acc (i :: rest) = itertagsAux (acc ++ [(b, c)]) rest := by
            simp [itertagsAux, hr, hc]
          refine ⟨?_, ?_, ?_, ?_⟩
          · rw [h1, hfr, if_pos rfl]
          · obtain ⟨tail, ht⟩ := itertagsAux_extends rest (acc ++ [(b, c)])
            exact ⟨tail, by rw [h2, h1, ht]⟩
          · intro hnone
            rw [h1] at hnone
            simp at hnone
          · intro c' hc'
            rw [h1] at hc'
            simp only at hc'
            cases hc'
            exact ⟨acc, by rw [h1], hl⟩
        · have h1 : getColdAux l acc (i :: rest) = getColdAux l (acc ++ [(b, c)]) rest := by
            simp [getColdAux, hr, hc, hb]
          have h2 : itertagsAux acc (i :: rest) = itertagsAux (acc ++ [(b, c)]) rest := by
            simp [itertagsAux, hr, hc]
          have hl' : lookupKV (acc ++ [(b, c)]) l = none := by
            rw [lookupKV_append, hl, none_orElse_thunk]
            simp [lookupKV, hb]
          rw [h1, h2, hfr, if_neg hb]
          exact ih (acc ++ [(b, c)]) hl'

/-! ### Credential synchronization

`paramiko` key objects are modelled by their observable parts:
`get_name()` (the key type string such as `ssh-rsa`) and `get_base64()`
(the public material).  A GitHub-stored deploy key string is modelled as
its whitespace-separated word list, so `key.key.split()[1]` becomes
`words.get? 1` and `' '.join(elements)` becomes the literal word list. -/

/-- A `paramiko.pkey.PKey`: key type name and base64 public material. -/
structure PKeyM where
  ktype : String
  material : String
deriving DecidableEq

/-- The remote state the credential code touches: the app-held private
key and key-pair handle, the repository's deploy-key list (`none` when
no repository is attached), and the EC2 key-pair registry by name. -/
structure CredWorld where
  privKey : Option PKeyM
  keyPair : Option String
  repoKeys : Option (List (String × List String))
  ec2Names : List String
deriving DecidableEq

/-- `App.key_name` = `KEY_PAIR_NAME_FORMAT.format(app=self)` = `Asuka-<name>`. -/
def keyName (app : String) : String := "Asuka-" ++ app

/-- `App.public_key_string` = `' '.join((get_name(), get_base64(), key_name))`,
as its word list. -/
def publicKeyWords (pk : PKeyM) (kn : String) : List String :=
  [pk.ktype, pk.material, kn]

/-- The match test of `_create_github_deploy_key`'s loop: same title and
`key.key.split()[1]` equal to the private key's base64 material. -/
def deployKeyMatches (kn material : String) (tk : String × List String) : Bool :=
  tk.1 == kn && tk.2.get? 1 == some material

/-- `App._create_github_deploy_key`: no-op without an attached
repository; otherwise scan the deploy keys for a title+material match
and create one only when the scan's `for ... else` falls through. -/
def createGithubDeployKey (kn : String) (pk : PKeyM)
    (repo : Option (List (String × List String))) :
    Option (List (String × List String)) :=
  match repo with
  | none => none
  | some keys =>
      if keys.any (deployKeyMatches kn pk.material) then some keys
      else some (keys ++ [(kn, publicKeyWords pk kn)])

/-- The valid-`PKey` path of the `App.private_key` setter: store the key,
run `_create_github_deploy_key`, then look the key pair up by exact name
(`get_all_key_pairs([self.key_name])`, which per the collaborator
interface returns the matching handles) and import the public half only
when the lookup comes back empty. -/
def ensurePrivateKey (app : String) (w : CredWorld) (pk : PKeyM) : CredWorld :=
  let kn := keyName app
  let repoKeys' := createGithubDeployKey kn pk w.repoKeys
  if (w.ec2Names.filter (fun n => n = kn)).isEmpty then
    { privKey := some pk, keyPair := some kn, repoKeys := repoKeys',
      ec2Names := w.ec2Names ++ [kn] }
  else
    { privKey := some pk, keyPair := some kn, repoKeys := repoKeys',
      ec2Names := w.ec2Names }

/-- The full `App.private_key` setter: a value that is not a `PKey`
instance raises `TypeError` before anything is stored. -/
def setPrivateKey (app : String) (w : CredWorld) (input : Option PKeyM) :
    Except String CredWorld :=
  match input with
  | none => .error "TypeError: private_key must be an instance of paramiko.pkey.PKey"
  | some pk => .ok (ensurePrivateKey app w pk)

/-- The `App.key_pair` property getter, parametrised by the key material
the provider would generate (`create_key_pair` returns it exactly once).
When `_key_pair` is absent it creates a fresh provider key pair, stores
the parsed private key, runs `_create_github_deploy_key` — and then
falls off the end of the function body, so the property evaluates to
`None` on that path. -/
def keyPairGet (app : String) (w : CredWorld) (fresh : PKeyM) :
    Option String × CredWorld :=
  match w.keyPair with
  | some kp => (some kp, w)
  | none =>
      let kn := keyName app
      (none,
        { privKey := some fresh, keyPair := some kn,
          repoKeys := createGithubDeployKey kn fresh w.repoKeys,
          ec2Names := w.ec2Names ++ [kn] })

/-- The number of EC2 key pairs carrying a given name. -/
def countKeyPairs (w : CredWorld) (kn : String) : Nat :=
  (w.ec2Names.filter (fun n => n = kn)).length

/-- The number of repository deploy keys carrying a given title. -/
def countDeployTitled (w : CredWorld) (kn : String) : Nat :=
  match w.repoKeys with
  | none => 0
  | some keys => (keys.filter (fun tk => tk.1 = kn)).length

/-! ### Application identity -/

/-- The configuration fields of an `App` relevant to identity claims: the
name plus a sample of the other configuration values. -/
structure AppModel where
  name : String
  url_base : String
  github_client_id : String
  github_client_secret : String
  ec2_security_groups : List String
deriving DecidableEq

/-- `App.__eq__`: `isinstance(operand, type(self)) and operand.name == self.name`
(the `isinstance` test always holds between two `App` values). -/
def appEq (a b : AppModel) : Bool := b.name == a.name

/-- `App.__ne__`: `not (self == operand)`. -/
def appNe (a b : AppModel) : Bool := !appEq a b

/-- `App.__hash__`: `hash(self.name)`, modelled with the ambient string
hash in place of Python's. -/
def appHash (a : AppModel) : UInt64 := a.name.hash

/-! ### SHA-256 (`hashlib.sha256(...).hexdigest()`)

A complete executable SHA-256 over byte lists, with 32-bit words carried
as `Nat` reduced modulo `2^32`.  `consistent_secret` feeds it the
comma-joined triple exactly as `App.consistent_secret` does. -/

/-- Truncation to a 32-bit word. -/
def w32 (n : Nat) : Nat := n % 4294967296

/-- Right rotation of a 32-bit word by `n` places. -/
def rotr32 (n x : Nat) : Nat :=
  w32 (Nat.lor (Nat.shiftRight x n) (Nat.shiftLeft x (32 - n)))

/-- The choose function of the compression round. -/
def shaCh (x y z : Nat) : Nat :=
  Nat.xor (Nat.land x y) (Nat.land (Nat.xor x 4294967295) z)

/-- The majority function of the compression round. -/
def shaMaj (x y z : Nat) : Nat :=
  Nat.xor (Nat.xor (Nat.land x y) (Nat.land x z)) (Nat.land y z)

/-- The big Sigma-0 mixing function. -/
def bsig0 (x : Nat) : Nat :=
  Nat.xor (Nat.xor (rotr32 2 x) (rotr32 13 x)) (rotr32 22 x)

/-- The big Sigma-1 mixing function. -/
def bsig1 (x : Nat) : Nat :=
  Nat.xor (Nat.xor (rotr32 6 x) (rotr32 11 x)) (rotr32 25 x)

/-- The small sigma-0 schedule function. -/
def ssig0 (x : Nat) : Nat :=
  Nat.xor (Nat.xor (rotr32 7 x) (rotr32 18 x)) (Nat.shiftRight x 3)

/-- The small sigma-1 schedule function. -/
def ssig1 (x : Nat) : Nat :=
  Nat.xor (Nat.xor (rotr32 17 x) (rotr32 19 x)) (Nat.shiftRight x 10)

/-- The 64 SHA-256 round constants of FIPS 180-2, in decimal. -/
def shaK : Array Nat :=
  #[1116352408, 1899447441, 3049323471, 3921009573, 961987163,
   1508970993, 2453635748, 2870763221, 3624381080, 310598401,
   607225278, 1426881987, 1925078388, 2162078206, 2614888103,
   3248222580, 3835390401, 4022224774, 264347078, 604807628,
   770255983, 1249150122, 1555081692, 1996064986, 2554220882,
   2821834349, 2952996808, 3210313671, 3336571891, 3584528711,
   113926993, 338241895, 666307205, 773529912, 1294757372,
   1396182291, 1695183700, 1986661051, 2177026350, 2456956037,
   2730485921, 2820302411, 3259730800, 3345764771, 3516065817,
   3600352804, 4094571909, 275423344, 430227734, 506948616,
   659060556, 883997877, 958139571, 1322822218, 1537002063,
   1747873779, 1955562222, 2024104815, 2227730452, 2361852424,
   2428436474, 2756734187, 3204031479, 3329325298]

/-- An eight-word hash state. -/
structure Hash8 where
  a : Nat
  b : Nat
  c : Nat
  d : Nat
  e : Nat
  f : Nat
  g : Nat
  h : Nat
deriving DecidableEq

/-- The SHA-256 initial hash value of FIPS 180-2, in decimal. -/
def shaH0 : Hash8 :=
  ⟨1779033703, 3144134277, 1013904242, 2773480762,
   1359893119, 2600822924, 528734635, 1541459225⟩

/-- Big-endian byte expansion of a number into `n` bytes. -/
def bytesBE : Nat → Nat → List Nat
  | 0, _ => []
  | n + 1, x => bytesBE n (x / 256) ++ [x % 256]

/-- SHA-256 padding: a `0x80` byte, zeros to 56 mod 64, then the 64-bit
big-endian bit length. -/
def sha256Pad (msg : List Nat) : List Nat :=
  let L := msg.length
  let r := (L + 1) % 64
  let z := if r ≤ 56 then 56 - r else 120 - r
  msg ++ [128] ++ List.replicate z 0 ++ bytesBE 8 (8 * L)

/-- Big-endian 32-bit words from bytes (drops a trailing partial word;
the inputs used are always multiples of four bytes). -/
def wordsOfBytes : List Nat → List Nat
  | b1 :: b2 :: b3 :: b4 :: rest =>
      (((b1 * 256 + b2) * 256 + b3) * 256 + b4) :: wordsOfBytes rest
  | _ => []

/-- The 64-word message schedule of one block. -/
def msgSchedule (block : List Nat) : Array Nat :=
  (List.range 48).foldl
    (fun w i =>
      w.push (w32 (ssig1 (w.getD (i + 14) 0) + w.getD (i + 9) 0 +
        ssig0 (w.getD (i + 1) 0) + w.getD i 0)))
    block.toArray

/-- One SHA-256 round. -/
def shaRound (kt wt : Nat) (s : Hash8) : Hash8 :=
  let t1 := w32 (s.h + bsig1 s.e + shaCh s.e s.f s.g + kt + wt)
  let t2 := w32 (bsig0 s.a + shaMaj s.a s.b s.c)
  ⟨w32 (t1 + t2), s.a, s.b, s.c, w32 (s.d + t1), s.e, s.f, s.g⟩

/-- Compression of one 16-word block into the running hash. -/
def shaCompress (H : Hash8) (block : List Nat) : Hash8 :=
  let W := msgSchedule block
  let s := (List.range 64).foldl (fun s t => shaRound (shaK.getD t 0) (W.getD t 0) s) H
  ⟨w32 (H.a + s.a), w32 (H.b + s.b), w32 (H.c + s.c), w32 (H.d + s.d),
   w32 (H.e + s.e), w32 (H.f + s.f), w32 (H.g + s.g), w32 (H.h + s.h)⟩

/-- Iterates the compression over 64-byte blocks, `n` blocks in total. -/
def sha256Iter : Nat → Hash8 → List Nat → Hash8
  | 0, H, _ => H
  | n + 1, H, bytes =>
      sha256Iter n (shaCompress H (wordsOfBytes (bytes.take 64))) (bytes.drop 64)

/-- The final hash state over a byte message. -/
def sha256Words (msg : List Nat) : Hash8 :=
  let padded := sha256Pad msg
  sha256Iter (padded.length / 64) shaH0 padded

def hexDigitChar (n : Nat) : Char :=
  if n < 10 then Char.ofNat (48 + n) else Char.ofNat (87 + n)

/-- Lowercase hex rendering of one 32-bit word, eight digits. -/
def hexWord (x : Nat) : List Char :=
  [hexDigitChar (x / 268435456 % 16), hexDigitChar (x / 16777216 % 16),
   hexDigitChar (x / 1048576 % 16), hexDigitChar (x / 65536 % 16),
   hexDigitChar (x / 4096 % 16), hexDigitChar (x / 256 % 16),
   hexDigitChar (x / 16 % 16), hexDigitChar (x % 16)]

/-- `hashlib.sha256(msg).hexdigest()`. -/
def sha256Hexdigest (msg : List Nat) : String :=
  let H := sha256Words msg
  String.mk (hexWord H.a ++ hexWord H.b ++ hexWord H.c ++ hexWord H.d ++
    hexWord H.e ++ hexWord H.f ++ hexWord H.g ++ hexWord H.h)

/-- The bytes of a string (the configuration strings involved are ASCII,
so Python 2's byte string and the code-point sequence coincide). -/
def strBytes (s : String) : List Nat := s.data.map Char.toNat

/-- Python `','.join(parts)`. -/
def joinComma : List String → String
  | [] => ""
  | [x] => x
  | x :: rest => x ++ "," ++ joinComma rest

/-- `App.consistent_secret`: the SHA-256 hexdigest of
`','.join((self.name, ec2.provider.secret_key, self.github_client_secret))`. -/
def consistent_secret (name secretKey githubClientSecret : String) : String :=
  sha256Hexdigest (strBytes (joinComma [name, secretKey, githubClientSecret]))

/-- Ported from the spec's words, for comparison with `consistent_secret`:
a cryptographic digest over the ordered concatenation of application
name, compute-provider account secret, and source-host client secret,
joined by a fixed delimiter. -/
def deriveSecretSpec (identity providerSecret sourceHostSecret : String) : String :=
  sha256Hexdigest (strBytes (identity ++ "," ++ providerSecret ++ "," ++ sourceHostSecret))

/-! ### Lemmas about `InstanceSet` predicates and filters -/

theorem dictInsert_of_fresh (d : List (String × String)) (k v : String)
    (h : containsKey d k = false) : dictInsert d k v = d ++ [(k, v)] := by
  induction d with
  | nil => rfl
  | cons p rest ih =>
    simp only [containsKey, Bool.or_eq_false_iff, beq_eq_false_iff_ne, ne_eq] at h
    simp [dictInsert, h.1, ih h.2]

theorem tagPrefix_inj (a b : String) (h : "tag:" ++ a = "tag:" ++ b) : a = b := by
  have hd := congrArg String.data h
  rw [String.data_append, String.data_append] at hd
  exact String.ext (List.append_cancel_left hd)

theorem tagPrefix_ne_isn (t : String) : ¬ ("tag:" ++ t = "instance-state-name") := by
  intro h
  have hd := congrArg String.data h
  rw [String.data_append] at hd
  simp [show "tag:".data = ['t', 'a', 'g', ':'] from rfl,
    show "instance-state-name".data
      = ['i', 'n', 's', 't', 'a', 'n', 'c', 'e', '-', 's', 't', 'a', 't', 'e',
         '-', 'n', 'a', 'm', 'e'] from rfl] at hd

theorem lookup_map_tag (l : List (String × String)) (t : String) :
    lookupKV (l.map (fun p => ("tag:" ++ p.1, p.2))) ("tag:" ++ t) = lookupKV l t := by
  induction l with
  | nil => rfl
  | cons p rest ih =>
    by_cases h : p.1 = t
    · simp [lookupKV, h, ih]
    · have h2 : ¬ ("tag:" ++ p.1 = "tag:" ++ t) := fun e => h (tagPrefix_inj _ _ e)
      simp [lookupKV, h, h2, ih]

theorem lookup_map_tag_none (l : List (String × String)) (k : String)
    (h : ∀ t, ¬ (k = "tag:" ++ t)) :
    lookupKV (l.map (fun p => ("tag:" ++ p.1, p.2))) k = none := by
  induction l with
  | nil => rfl
  | cons p rest ih =>
    have h2 : ¬ ("tag:" ++ p.1 = k) := fun e => h p.1 e.symm
    simp [lookupKV, h2, ih]

theorem filtersOf_eq (s : InstSet) :
    filtersOf s = s.tags.map (fun p => ("tag:" ++ p.1, p.2))
      ++ [("instance-state-name", "running")] := by
  refine dictInsert_of_fresh _ _ _ ?_
  refine not_containsKey_of_lookup_none _ _ ?_
  exact lookup_map_tag_none _ _ (fun t e => tagPrefix_ne_isn t e.symm)

theorem lookup_filtersOf (s : InstSet) (k : String) :
    lookupKV (filtersOf s) k
      = (lookupKV (s.tags.map (fun p => ("tag:" ++ p.1, p.2))) k).orElse
          (fun _ => if "instance-state-name" = k then some "running" else none) := by
  rw [filtersOf_eq, lookupKV_append]
  rfl

theorem mkInstSet_nodup (app : String) (tags : List (String × String)) :
    nodupKeys (mkInstSet app tags).tags = true :=
  nodupKeys_dictUpdate _ tags rfl

theorem tagged_nodup (s : InstSet) (t v : String) :
    nodupKeys (s.tagged t v).tags = true :=
  mkInstSet_nodup s.appName _

theorem lookup_mkInstSet (app : String) (tags : List (String × String)) (k : String)
    (h : nodupKeys tags = true) :
    lookupKV (mkInstSet app tags).tags k
      = (lookupKV tags k).orElse (fun _ => if "App" = k then some app else none) := by
  show lookupKV (dictUpdate [("App", app)] tags) k = _
  rw [lookupKV_dictUpdate _ _ _ h]
  rfl

/-- What `tagged` really produces: the receiver's predicates take
precedence, the new pair fills in only a previously-missing key, and the
implicit `App` predicate backstops both. -/
theorem lookup_tagged (s : InstSet) (t v k : String)
    (h : nodupKeys s.tags = true) :
    lookupKV (s.tagged t v).tags k
      = (lookupKV s.tags k).orElse
          (fun _ => if t = k then some v
            else if "App" = k then some s.appName else none) := by
  have hinner : nodupKeys (dictUpdate [(t, v)] s.tags) = true :=
    nodupKeys_dictUpdate _ s.tags rfl
  show lookupKV (mkInstSet s.appName (dictUpdate [(t, v)] s.tags)).tags k = _
  rw [lookup_mkInstSet _ _ _ hinner, lookupKV_dictUpdate _ _ _ h]
  show ((lookupKV s.tags k).orElse fun _ => lookupKV [(t, v)] k).orElse _ = _
  rw [orElse_thunk_assoc]
  cases lookupKV s.tags k with
  | some v' => rfl
  | none =>
    by_cases ht : t = k
    · simp [lookupKV, ht]
    · have hnone : lookupKV [(t, v)] k = none := by simp [lookupKV, ht]
      rw [hnone, none_orElse_thunk, if_neg ht]

/-- A query built by any chain of `tagged` calls from `App.instances`. -/
def buildChain (app : String) (calls : List (String × String)) : InstSet :=
  calls.foldl (fun s p => s.tagged p.1 p.2) (appInstances app)

theorem chain_invariant (calls : List (String × String)) (s : InstSet)
    (hnd : nodupKeys s.tags = true) (happ : lookupKV s.tags "App" = some s.appName) :
    nodupKeys (calls.foldl (fun s p => s.tagged p.1 p.2) s).tags = true ∧
    lookupKV (calls.foldl (fun s p => s.tagged p.1 p.2) s).tags "App"
      = some (calls.foldl (fun s p => s.tagged p.1 p.2) s).appName ∧
    (calls.foldl (fun s p => s.tagged p.1 p.2) s).appName = s.appName := by
  induction calls generalizing s with
  | nil => exact ⟨hnd, happ, rfl⟩
  | cons p rest ih =>
    have hnd' := tagged_nodup s p.1 p.2
    have happ' : lookupKV (s.tagged p.1 p.2).tags "App" = some (s.tagged p.1 p.2).appName := by
      rw [lookup_tagged s p.1 p.2 "App" hnd, happ]
      rfl
    simpa [List.foldl_cons] using ih (s.tagged p.1 p.2) hnd' happ'

theorem buildChain_app (app : String) (calls : List (String × String)) :
    nodupKeys (buildChain app calls).tags = true ∧
    lookupKV (buildChain app calls).tags "App" = some app := by
  have h0 : nodupKeys (appInstances app).tags = true := mkInstSet_nodup app []
  have h1 : lookupKV (appInstances app).tags "App" = some (appInstances app).appName := rfl
  have h := chain_invariant calls (appInstances app) h0 h1
  refine ⟨h.1, ?_⟩
  have h2 := h.2.1
  rw [h.2.2] at h2
  exact h2

/-! ### Sample instances used by the concrete parts of the claims -/

def instMain : Inst :=
  ⟨"i-1", "running", [("App", "myapp"), ("Branch", "main"), ("Commit", "c1"), ("Status", "done")]⟩

def instMain2 : Inst :=
  ⟨"i-2", "running", [("App", "myapp"), ("Branch", "main"), ("Commit", "c2"), ("Status", "done")]⟩

def instDev : Inst :=
  ⟨"i-3", "running", [("App", "myapp"), ("Branch", "dev"), ("Commit", "c2"), ("Status", "done")]⟩

def instLiveMain : Inst :=
  ⟨"i-0", "running",
   [("Branch", "main"), ("Commit", "c0"), ("Status", "done"), ("Live", "live")]⟩

def instPartial : Inst :=
  ⟨"i-4", "running", [("Branch", "main"), ("Status", "done")]⟩

/-- Ported from the spec's words, for comparison with `InstSet.tagged`:
"the returned query's predicate set is the receiver's predicates plus
`{t: v}`". -/
def taggedSpec (s : InstSet) (t v : String) : InstSet :=
  ⟨s.appName, dictInsert s.tags t v⟩

/-! ### Claim theorems -/

/-- **C1.** For every enumeration of instances tagged `Status=done`,
`DeployedBranchDict.itertags` records, for each branch, the commit of the
first instance in enumeration order that is not tagged `Live=live` and
carries both a `Branch` and a `Commit` tag (first occurrence in
enumeration order wins; `Live=live` instances and partially tagged
instances are skipped).  In particular, for `main` instances at commits
`c1` then `c2` enumerated in that order, looking up `main` yields `c1`,
also in the presence of an earlier `Live=live` instance or an earlier
instance missing its `Commit` tag. -/
theorem C1_deployment_index_first_seen_wins :
    (∀ insts b, lookupKV (itertagsFull insts) b = firstRecord insts b) ∧
    lookupKV (itertagsFull [instMain, instMain2]) "main" = some "c1" ∧
    lookupKV (itertagsFull [instLiveMain, instMain, instMain2]) "main" = some "c1" ∧
    lookupKV (itertagsFull [instPartial, instMain, instMain2]) "main" = some "c1" := by
  exact ⟨lookup_itertagsFull, by decide, by decide, by decide⟩

/-- **C3 (counterexample).** `InstanceSet.__iter__` swallows the
`EC2ResponseError` with code `AuthFailure`, which indicates neither "no
matching resources" nor a recognized transient API fault, contradicting
the claim that only such errors are swallowed. -/
theorem C3_counterexample :
    iterOutcome (.error (.ec2ResponseError "AuthFailure")) = .ok [] ∧
    specSwallows (.ec2ResponseError "AuthFailure") = false := by
  exact ⟨rfl, by decide⟩

/-- **C3 (amended).** During instance-listing iteration, every
`EC2ResponseError` — whatever its error code, transient or not — is
swallowed and yields an empty sequence; a successful listing is passed
through, and every failure that is not an `EC2ResponseError` is rethrown
to the caller. -/
theorem C3_swallows_every_ec2_response_error :
    (∀ code, iterOutcome (.error (.ec2ResponseError code)) = .ok []) ∧
    (∀ xs, iterOutcome (.ok xs) = .ok xs) ∧
    (∀ d, iterOutcome (.error (.otherFailure d)) = .error (.otherFailure d)) :=
  ⟨fun _ => rfl, fun _ => rfl, fun _ => rfl⟩

/-- **C4 (counterexample).** `tagged(t, v)` builds `{t: v}` and then
updates it with the receiver's predicates, so an already-present
predicate key keeps its old value: tagging `Status=failed` on a query
already carrying `Status=done` leaves `Status=done`, while the claim's
"receiver's predicates plus `{t: v}`" would give `Status=failed`. -/
theorem C4_counterexample :
    lookupKV (((appInstances "myapp").tagged "Status" "done").tagged
      "Status" "failed").tags "Status" = some "done" ∧
    lookupKV (taggedSpec ((appInstances "myapp").tagged "Status" "done")
      "Status" "failed").tags "Status" = some "failed" := by
  exact ⟨by decide, by decide⟩

/-- **C4 (amended).** `tagged(t, v)` never mutates the receiver (it is a
pure constructor call); the returned set's predicate mapping gives the
receiver's predicates precedence, with `{t: v}` filling in only a
previously-absent key (so when `t` is not among the receiver's predicate
keys the result is exactly the receiver's predicates plus `{t: v}`); and
two queries with extensionally equal predicate mappings issue the same
remote filter request. -/
theorem C4_tagged_receiver_predicates_win (s s' : InstSet) (t v : String)
    (hnd : nodupKeys s.tags = true) :
    (∀ k, lookupKV (s.tagged t v).tags k
      = (lookupKV s.tags k).orElse
          (fun _ => if t = k then some v
            else if "App" = k then some s.appName else none)) ∧
    (containsKey s.tags t = false ∧ containsKey s.tags "App" = true →
      ∀ k, lookupKV (s.tagged t v).tags k = lookupKV (taggedSpec s t v).tags k) ∧
    ((∀ k, lookupKV s.tags k = lookupKV s'.tags k) →
      ∀ k, lookupKV (filtersOf s) k = lookupKV (filtersOf s') k) := by
  refine ⟨fun k => lookup_tagged s t v k hnd, fun hf k => ?_, fun htags k => ?_⟩
  · rw [lookup_tagged s t v k hnd]
    show _ = lookupKV (dictInsert s.tags t v) k
    rw [lookupKV_dictInsert]
    by_cases ht : t = k
    · subst ht
      have hn : lookupKV s.tags t = none := lookup_of_not_containsKey s.tags t hf.1
      simp [hn, Option.orElse]
    · cases hl : lookupKV s.tags k with
      | some v' => simp [ht, Option.orElse]
      | none =>
        have hApp : ¬ "App" = k := by
          intro e
          have hc := (containsKey_iff_lookup s.tags "App").mp hf.2
          rw [e, hl] at hc
          simp at hc
        simp [ht, hApp, Option.orElse]
  · rw [lookup_filtersOf, lookup_filtersOf]
    by_cases hk : ∃ u, k = "tag:" ++ u
    · obtain ⟨u, rfl⟩ := hk
      rw [lookup_map_tag, lookup_map_tag, htags]
    · rw [lookup_map_tag_none s.tags k (fun u e => hk ⟨u, e⟩),
        lookup_map_tag_none s'.tags k (fun u e => hk ⟨u, e⟩)]

/-- **C4 (witness).** -/
theorem C4_witness :
    lookupKV ((appInstances "myapp").tagged "Status" "done").tags "Status"
      = (lookupKV (appInstances "myapp").tags "Status").orElse
          (fun _ => if "Status" = "Status" then some "done"
            else if "App" = "Status" then some "myapp" else none) ∧
    lookupKV ((appInstances "myapp").tagged "Status" "done").tags "Status"
      = lookupKV (taggedSpec (appInstances "myapp") "Status" "done").tags "Status" ∧
    lookupKV (filtersOf (appInstances "myapp")) ("tag:" ++ "App")
      = lookupKV (filtersOf ⟨"other", [("App", "myapp")]⟩) ("tag:" ++ "App") := by
  have h := C4_tagged_receiver_predicates_win (appInstances "myapp")
    ⟨"other", [("App", "myapp")]⟩ "Status" "done" (by decide)
  exact ⟨h.1 "Status", h.2.1 ⟨by decide, by decide⟩ "Status",
    h.2.2 (fun _ => rfl) ("tag:" ++ "App")⟩

/-- **C6.** Every evaluation of an instance set built by any chain of
`tagged()` calls from `App.instances` sends a remote filter request
containing `tag:App = <appName>` and `instance-state-name = running`. -/
theorem C6_implicit_filters (app : String) (calls : List (String × String)) :
    lookupKV (filtersOf (buildChain app calls)) ("tag:" ++ "App") = some app ∧
    lookupKV (filtersOf (buildChain app calls)) "instance-state-name" = some "running" := by
  obtain ⟨hnd, happ⟩ := buildChain_app app calls
  constructor
  · rw [lookup_filtersOf, lookup_map_tag, happ]
    rfl
  · rw [lookup_filtersOf,
      lookup_map_tag_none _ _ (fun u e => tagPrefix_ne_isn u e.symm),
      none_orElse_thunk, if_pos rfl]

/-- **C9.** Two applications are equal iff their names are equal,
independently of every other configuration field; `__ne__` is the
negation of `__eq__`; and equal names imply equal hashes. -/
theorem C9_identity_is_name_only (a b : AppModel) :
    (appEq a b = true ↔ a.name = b.name) ∧
    appNe a b = !appEq a b ∧
    (a.name = b.name → appHash a = appHash b) := by
  refine ⟨?_, rfl, fun h => by simp [appHash, h]⟩
  show (b.name == a.name) = true ↔ a.name = b.name
  rw [beq_iff_eq]
  exact eq_comm

/-- **C9 (witness).** -/
theorem C9_witness :
    appEq ⟨"app", "u1", "id1", "sec1", ["g"]⟩ ⟨"app", "u2", "id2", "sec2", []⟩ = true ∧
    appHash (⟨"app", "u1", "id1", "sec1", ["g"]⟩ : AppModel)
      = appHash ⟨"app", "u2", "id2", "sec2", []⟩ := by
  have h := C9_identity_is_name_only ⟨"app", "u1", "id1", "sec1", ["g"]⟩
    ⟨"app", "u2", "id2", "sec2", []⟩
  exact ⟨h.1.mpr rfl, h.2.2 rfl⟩

/-- **C5.** `get(branch)` raises `KeyError` when no record exists for the
branch, on a cold cache (after a full recomputation) as well as on a
warm cache; a warm-cache lookup never issues a remote listing and is
independent of the current remote state, so a newly created matching
instance becomes visible only after `refresh()`. -/
theorem C5_get_not_found_and_no_requery (insts insts' : List Inst)
    (cache : List (String × String)) (l : String) :
    (lookupKV (itertagsFull insts) l = none →
      dbGet .cold insts l = (.error (), .warm (itertagsFull insts), true)) ∧
    (lookupKV cache l = none →
      dbGet (.warm cache) insts l = (.error (), .warm cache, false)) ∧
    (dbGet (.warm cache) insts l).2.2 = false ∧
    dbGet (.warm cache) insts l = dbGet (.warm cache) insts' l ∧
    (∀ c, lookupKV (itertagsFull insts') l = some c →
      (dbGet (dbRefresh (.warm cache)) insts' l).1 = .ok c) := by
  refine ⟨?_, ?_, ?_, rfl, ?_⟩
  · intro h
    rw [lookup_itertagsFull] at h
    obtain ⟨hres, -, hmiss, -⟩ := getColdAux_spec insts [] l rfl
    have h1 : (getColdAux l [] insts).1 = none := hres.trans h
    have h2 : (getColdAux l [] insts).2 = itertagsFull insts := hmiss h1
    have h3 : getColdAux l [] insts = (none, itertagsFull insts) := by
      cases hg : getColdAux l [] insts with
      | mk r c =>
        rw [hg] at h1 h2
        simp only at h1 h2
        rw [h1, h2]
    simp [dbGet, h3]
  · intro h
    simp [dbGet, h]
  · cases hc : lookupKV cache l <;> simp [dbGet, hc]
  · intro c h
    rw [lookup_itertagsFull] at h
    obtain ⟨hres, -, -, -⟩ := getColdAux_spec insts' [] l rfl
    have h1 : (getColdAux l [] insts').1 = some c := hres.trans h
    cases hg : getColdAux l [] insts' with
    | mk r cch =>
      rw [hg] at h1
      simp only at h1
      rw [h1] at hg
      simp [dbGet, dbRefresh, hg]

/-- **C5 (witness).** -/
theorem C5_witness :
    dbGet .cold [instDev] "main" = (.error (), .warm (itertagsFull [instDev]), true) ∧
    dbGet (.warm [("dev", "c2")]) [instMain] "main"
      = (.error (), .warm [("dev", "c2")], false) ∧
    (dbGet (dbRefresh (.warm [("dev", "c2")])) [instMain] "main").1 = .ok "c1" := by
  have h := C5_get_not_found_and_no_requery [instDev] [instMain] [("dev", "c2")] "main"
  exact ⟨h.1 (by decide), h.2.1 (by decide), h.2.2.2.2 "c1" (by decide)⟩

/-- **C10.** A cold `get(branch)` whose enumeration contains a record for
the branch stops at the first match and leaves the cache warm but
partially populated: exactly an initial segment of the full record list
ending at the found record; a warm lookup then answers from that
incomplete cache (`KeyError` for anything not yet cached); only a cold
miss (or a cold `len`) leaves the cache fully populated.  The concrete
scenario: `get("main")` caches only `main`, after which `dev` is
invisible (`KeyError`, `len` = 1) until `refresh()`; a cold `len` caches
both records. -/
theorem C10_partial_cache_population (insts : List Inst) (l : String) :
    ((getColdAux l [] insts).1 = lookupKV (itertagsFull insts) l) ∧
    (∀ c, lookupKV (itertagsFull insts) l = some c →
      ∃ pre, dbGet .cold insts l = (.ok c, .warm (pre ++ [(l, c)]), true) ∧
        lookupKV pre l = none ∧
        ∃ rest, itertagsFull insts = (pre ++ [(l, c)]) ++ rest) ∧
    (lookupKV (itertagsFull insts) l = none →
      dbGet .cold insts l = (.error (), .warm (itertagsFull insts), true)) ∧
    (∀ cache b, lookupKV cache b = none → (dbGet (.warm cache) insts b).1 = .error ()) ∧
    dbGet .cold [instMain, instDev] "main" = (.ok "c1", .warm [("main", "c1")], true) ∧
    (dbGet (.warm [("main", "c1")]) [instMain, instDev] "dev").1 = .error () ∧
    dbLen (.warm [("main", "c1")]) [instMain, instDev] = (1, .warm [("main", "c1")], false) ∧
    (dbGet (dbRefresh (.warm [("main", "c1")])) [instMain, instDev] "dev").1 = .ok "c2" ∧
    dbLen .cold [instMain, instDev] = (2, .warm [("main", "c1"), ("dev", "c2")], true) := by
  obtain ⟨hres, hpre, hmiss, hhit⟩ := getColdAux_spec insts [] l rfl
  refine ⟨?_, ?_, ?_, ?_, by rfl, by rfl, by rfl, by rfl, by rfl⟩
  · rw [lookup_itertagsFull]
    exact hres
  · intro c h
    rw [lookup_itertagsFull] at h
    have h1 : (getColdAux l [] insts).1 = some c := hres.trans h
    obtain ⟨pre, hp, hpl⟩ := hhit c h1
    refine ⟨pre, ?_, hpl, ?_⟩
    · have h3 : getColdAux l [] insts = (some c, pre ++ [(l, c)]) := by
        cases hg : getColdAux l [] insts with
        | mk r cch =>
          rw [hg] at h1 hp
          simp only at h1 hp
          rw [h1, hp]
      simp [dbGet, h3]
    · obtain ⟨rest, hr⟩ := hpre
      exact ⟨rest, by rw [← hp]; exact hr⟩
  · intro h
    rw [lookup_itertagsFull] at h
    have h1 : (getColdAux l [] insts).1 = none := hres.trans h
    have h2 : (getColdAux l [] insts).2 = itertagsFull insts := hmiss h1
    have h3 : getColdAux l [] insts = (none, itertagsFull insts) := by
      cases hg : getColdAux l [] insts with
      | mk r cch =>
        rw [hg] at h1 h2
        simp only at h1 h2
        rw [h1, h2]
    simp [dbGet, h3]
  · intro cache b h
    simp [dbGet, h]

/-- **C10 (witness).** -/
theorem C10_witness :
    (∃ pre, dbGet .cold [instMain, instDev] "main"
        = (.ok "c1", .warm (pre ++ [("main", "c1")]), true) ∧
      lookupKV pre "main" = none ∧
      ∃ rest, itertagsFull [instMain, instDev] = (pre ++ [("main", "c1")]) ++ rest) ∧
    dbGet .cold [instPartial] "main" = (.error (), .warm (itertagsFull [instPartial]), true) ∧
    (dbGet (.warm []) [instMain, instDev] "main").1 = .error () := by
  have h := C10_partial_cache_population [instMain, instDev] "main"
  have h2 := C10_partial_cache_population [instPartial] "main"
  exact ⟨h.2.1 "c1" (by decide), h2.2.2.1 (by decide), h.2.2.2.1 [] "main" (by decide)⟩

/-! ### Credential lemmas and claims C2, C8 -/

theorem deploy_scan_misses (ks : List (String × List String)) (kn m : String)
    (h : ∀ tk ∈ ks, tk.1 ≠ kn) : ks.any (deployKeyMatches kn m) = false := by
  rw [List.any_eq_false]
  intro tk htk
  simp only [deployKeyMatches, Bool.and_eq_true, beq_iff_eq]
  intro hc
  exact absurd hc.1 (h tk htk)

theorem deploy_scan_hits (kn : String) (pk : PKeyM) (ks : List (String × List String)) :
    (ks ++ [(kn, publicKeyWords pk kn)]).any (deployKeyMatches kn pk.material) = true := by
  rw [List.any_eq_true]
  exact ⟨(kn, publicKeyWords pk kn), by simp, by simp [deployKeyMatches, publicKeyWords]⟩

/-- The shape of `ensurePrivateKey`'s result. -/
theorem ensurePrivateKey_eq (app : String) (w : CredWorld) (pk : PKeyM) :
    ensurePrivateKey app w pk
      = { privKey := some pk, keyPair := some (keyName app),
          repoKeys := createGithubDeployKey (keyName app) pk w.repoKeys,
          ec2Names :=
            if (w.ec2Names.filter (fun n => n = keyName app)).isEmpty
            then w.ec2Names ++ [keyName app] else w.ec2Names } := by
  by_cases h : (w.ec2Names.filter (fun n => n = keyName app)).isEmpty <;>
    simp [ensurePrivateKey, h]

/-- **C2.** Starting from a world with at most one compute-provider key
pair named `Asuka-<name>`, an attached repository, and no deploy key yet
carrying that title, running the credential synchronization
(`private_key` setter) twice with the same key material is idempotent:
the second run changes nothing remotely, and afterwards exactly one key
pair of that name and exactly one (hence at most one) deploy key of that
title exist. -/
theorem C2_ensure_idempotent (app : String) (pk : PKeyM) (w : CredWorld)
    (ks : List (String × List String))
    (hrepo : w.repoKeys = some ks)
    (hkp : countKeyPairs w (keyName app) ≤ 1)
    (hdk : ∀ tk ∈ ks, tk.1 ≠ keyName app) :
    ensurePrivateKey app (ensurePrivateKey app w pk) pk = ensurePrivateKey app w pk ∧
    countKeyPairs (ensurePrivateKey app w pk) (keyName app) = 1 ∧
    countDeployTitled (ensurePrivateKey app w pk) (keyName app) = 1 := by
  have hany : ks.any (deployKeyMatches (keyName app) pk.material) = false :=
    deploy_scan_misses ks (keyName app) pk.material hdk
  have hck : createGithubDeployKey (keyName app) pk w.repoKeys
      = some (ks ++ [(keyName app, publicKeyWords pk (keyName app))]) := by
    rw [hrepo]
    simp [createGithubDeployKey, hany]
  have hck2 : createGithubDeployKey (keyName app) pk
      (some (ks ++ [(keyName app, publicKeyWords pk (keyName app))]))
      = some (ks ++ [(keyName app, publicKeyWords pk (keyName app))]) := by
    have h := deploy_scan_hits (keyName app) pk ks
    simp [createGithubDeployKey, h]
  have hw1 := ensurePrivateKey_eq app w pk
  have hcount1 : countKeyPairs (ensurePrivateKey app w pk) (keyName app) = 1 := by
    rw [hw1]
    show ((if (w.ec2Names.filter (fun n => n = keyName app)).isEmpty
        then w.ec2Names ++ [keyName app] else w.ec2Names).filter
          (fun n => n = keyName app)).length = 1
    by_cases h : (w.ec2Names.filter (fun n => n = keyName app)).isEmpty
    · rw [if_pos h, List.filter_append]
      have hz : (w.ec2Names.filter (fun n => n = keyName app)) = [] :=
        List.isEmpty_iff.mp h
      simp [hz]
    · rw [if_neg h]
      have hpos : 0 < (w.ec2Names.filter (fun n => n = keyName app)).length := by
        cases hf : w.ec2Names.filter (fun n => n = keyName app) with
        | nil => rw [hf] at h; simp [List.isEmpty] at h
        | cons a rest => simp [hf]
      have hle : (w.ec2Names.filter (fun n => n = keyName app)).length ≤ 1 := hkp
      omega
  refine ⟨?_, hcount1, ?_⟩
  · rw [ensurePrivateKey_eq app (ensurePrivateKey app w pk) pk, hw1]
    have hne : (((ensurePrivateKey app w pk).ec2Names.filter
        (fun n => n = keyName app)).isEmpty) = false := by
      cases hf : (ensurePrivateKey app w pk).ec2Names.filter (fun n => n = keyName app) with
      | nil =>
        exfalso
        have : countKeyPairs (ensurePrivateKey app w pk) (keyName app) = 0 := by
          show ((ensurePrivateKey app w pk).ec2Names.filter (fun n => n = keyName app)).length = 0
          rw [hf]
          rfl
        rw [hcount1] at this
        exact one_ne_zero this
      | cons a rest => rfl
    rw [hw1] at hne
    simp only [hw1, hne]
    simp [hck, hck2, if_neg]
  · rw [hw1]
    show countDeployTitled _ (keyName app) = 1
    simp only [countDeployTitled, hck]
    rw [List.filter_append]
    have hz : ks.filter (fun tk => tk.1 = keyName app) = [] := by
      rw [List.filter_eq_nil_iff]
      intro tk htk
      simp [hdk tk htk]
    simp [hz]

/-- **C2 (witness).** -/
theorem C2_witness :
    ensurePrivateKey "demo"
        (ensurePrivateKey "demo" ⟨none, none, some [], []⟩ ⟨"ssh-rsa", "AAAB"⟩)
        ⟨"ssh-rsa", "AAAB"⟩
      = ensurePrivateKey "demo" ⟨none, none, some [], []⟩ ⟨"ssh-rsa", "AAAB"⟩ ∧
    countKeyPairs (ensurePrivateKey "demo" ⟨none, none, some [], []⟩ ⟨"ssh-rsa", "AAAB"⟩)
      (keyName "demo") = 1 ∧
    countDeployTitled (ensurePrivateKey "demo" ⟨none, none, some [], []⟩ ⟨"ssh-rsa", "AAAB"⟩)
      (keyName "demo") = 1 :=
  C2_ensure_idempotent "demo" ⟨"ssh-rsa", "AAAB"⟩ ⟨none, none, some [], []⟩ []
    rfl (by decide) (by simp)

/-- **C8 (the code at the claim's failing input).** On the
generate-fresh path the `key_pair` getter creates the provider key pair
named `Asuka-<name>`, stores it in `_key_pair`, stores the parsed
private key, creates the deploy key — and the property evaluates to
`None`, because the `except AttributeError` branch of the source never
returns; a second access then yields the stored key pair.  This
contradicts the claim (and the property's own docstring) that the
accessor yields the key pair on either path. -/
theorem C8_key_pair_first_access_returns_none :
    (keyPairGet "demo" ⟨none, none, some [], []⟩ ⟨"ssh-rsa", "FRESH"⟩).1 = none ∧
    (keyPairGet "demo" ⟨none, none, some [], []⟩ ⟨"ssh-rsa", "FRESH"⟩).2.keyPair
      = some (keyName "demo") ∧
    (keyPairGet "demo" ⟨none, none, some [], []⟩ ⟨"ssh-rsa", "FRESH"⟩).2.privKey
      = some ⟨"ssh-rsa", "FRESH"⟩ ∧
    countKeyPairs (keyPairGet "demo" ⟨none, none, some [], []⟩ ⟨"ssh-rsa", "FRESH"⟩).2
      (keyName "demo") = 1 ∧
    countDeployTitled (keyPairGet "demo" ⟨none, none, some [], []⟩ ⟨"ssh-rsa", "FRESH"⟩).2
      (keyName "demo") = 1 ∧
    (keyPairGet "demo"
      (keyPairGet "demo" ⟨none, none, some [], []⟩ ⟨"ssh-rsa", "FRESH"⟩).2
      ⟨"ssh-rsa", "OTHER"⟩).1 = some (keyName "demo") := by
  exact ⟨rfl, rfl, rfl, by decide, by decide, rfl⟩

/-! ### Claim C7: the consistent secret -/

theorem hexWord_length (x : Nat) : (hexWord x).length = 8 := rfl

theorem sha256Hexdigest_length (msg : List Nat) : (sha256Hexdigest msg).length = 64 := by
  show (hexWord _ ++ (hexWord _ ++ (hexWord _ ++ (hexWord _ ++ (hexWord _ ++
    (hexWord _ ++ (hexWord _ ++ hexWord _))))))).length = 64
  simp [List.length_append, hexWord_length]

set_option maxRecDepth 100000 in
/-- Validation of the SHA-256 model against the standard `abc` test
vector (FIPS 180-2). -/
theorem sha256_abc_test_vector :
    sha256Hexdigest (strBytes "abc")
      = "ba7816bf8f01cfea414140de5dae2223b00361a396177a9cb410ff61f20015ad" := by
  rfl

/-- **C7.** `App.consistent_secret` is a pure function of exactly the
application name, the compute-provider account secret key, and the
GitHub client secret: it equals the SHA-256 hex digest of their ordered
concatenation joined by the fixed `","` delimiter (the spec-side
formulation `deriveSecretSpec`), and its output is always a 64-character
hex string. -/
theorem C7_consistent_secret_is_digest_of_joined_triple (n p s : String) :
    consistent_secret n p s = deriveSecretSpec n p s ∧
    (consistent_secret n p s).length = 64 := by
  constructor
  · show sha256Hexdigest (strBytes (joinComma [n, p, s])) = _
    have hj : joinComma [n, p, s] = n ++ "," ++ p ++ "," ++ s := by
      simp [joinComma, String.append_assoc]
    rw [hj]
    rfl
  · exact sha256Hexdigest_length _

end Asuka
